import Mathlib

/-!
Verification of the core of `checkupgrades` (src/alpm.rs, src/sync.rs, src/main.rs)
against its natural-language specification.

The `desc` parser in src/alpm.rs is a single Rust regex in multiline mode:
  `^%(?<tag>[^%]+)%$\n (?s)(?<value>.*?)(?-s)$\n ^$\n`
iterated with `captures_iter` (leftmost, non-overlapping matches; the lazy
`.*?` value capture takes the shortest value that is followed by `$\n^$\n`,
i.e. by the two newline characters of the blank-line delimiter).  The shallow
embedding below implements exactly those semantics on `List Char`: a match can
only start at a line start (`^`), the tag is the maximal run of non-`%`
characters after the opening `%` (the character class `[^%]` admits no
backtracking, so this run is the only candidate), the closing `%` must be
followed by a literal newline, and the value extends to the first occurrence
of `"\n\n"` in the remainder.  Scanning advances one character at a time past
positions where no match starts, exactly like the regex engine's leftmost
search, and resumes after the end of each match.
-/

namespace Checkupgrades

/-- Does the character list contain two consecutive newlines (the blank-line
delimiter `^$\n` together with the preceding end-of-line `$\n`)? -/
def hasNLNL : List Char → Bool
  | [] => false
  | [_] => false
  | c1 :: c2 :: rest => (c1 == '\n' && c2 == '\n') || hasNLNL (c2 :: rest)

/-- Split the input at the first occurrence of `"\n\n"`: returns the characters
before it and the characters after it.  This is the lazy `(?s)(.*?)$\n^$\n`
part of the desc regex: the shortest value capture followed by the end of its
line and a blank line. -/
def findBreak : List Char → Option (List Char × List Char)
  | [] => none
  | [_] => none
  | c1 :: c2 :: rest =>
    if c1 = '\n' ∧ c2 = '\n' then some ([], rest)
    else (findBreak (c2 :: rest)).map fun p => (c1 :: p.1, p.2)

/-- Try to match the whole desc regex at the current position, which the caller
guarantees to be a line start (`^`).  The tag is the maximal run of non-`%`
characters after the opening `%` (it must be non-empty, and the closing `%`
must be followed by a literal newline per `%$\n`); the value runs to the first
blank-line delimiter.  On success returns the `(tag, value)` captures and the
rest of the input after the consumed match. -/
def matchAt (cs : List Char) : Option ((List Char × List Char) × List Char) :=
  match cs with
  | [] => none
  | c :: rest =>
    if c = '%' ∧ (rest.takeWhile fun x => x != '%') ≠ [] ∧
        (rest.dropWhile fun x => x != '%').take 2 = ['%', '\n'] then
      match findBreak ((rest.dropWhile fun x => x != '%').drop 2) with
      | some (v, rest3) => some ((rest.takeWhile fun x => x != '%', v), rest3)
      | none => none
    else none

/-- Leftmost regex scan over the haystack.  `atStart` records whether the
current position is a line start (start of haystack or just after a newline);
matches are only attempted there, since the pattern begins with `^%`.  The
fuel argument makes the recursion structural; `fuel = cs.length` always
suffices because every step consumes at least one character. -/
def scanDesc : Nat → List Char → Bool → List (List Char × List Char)
  | 0, _, _ => []
  | _ + 1, [], _ => []
  | fuel + 1, c :: rest, atStart =>
    if atStart then
      match matchAt (c :: rest) with
      | some ((t, v), rest3) => (t, v) :: scanDesc fuel rest3 true
      | none => scanDesc fuel rest (c == '\n')
    else
      scanDesc fuel rest (c == '\n')

/-- All `(tag, value)` matches of the desc regex over a character list. -/
def descIterL (cs : List Char) : List (List Char × List Char) :=
  scanDesc cs.length cs true

/-- Embedding of `DescIter::new(desc)` collected into a list: every
`(tag, value)` pair yielded by the desc-file parser, in document order. -/
def descIter (s : String) : List (String × String) :=
  (descIterL s.data).map fun p => (p.1.asString, p.2.asString)

/-- Encoding of a `(tag, value)` pair list into the tag/value text grammar:
each pair becomes the tag line `%tag%`, then the value, then one blank line. -/
def encodeDesc : List (String × String) → String
  | [] => ""
  | (t, v) :: rest => "%" ++ t ++ "%\n" ++ v ++ "\n\n" ++ encodeDesc rest

/-- Character-level version of `encodeDesc`, used in the proofs. -/
def encodeL : List (List Char × List Char) → List Char
  | [] => []
  | (t, v) :: rest => '%' :: (t ++ '%' :: '\n' :: (v ++ '\n' :: '\n' :: encodeL rest))

/-- A tag fit for round-tripping: non-empty, no `%`, no newline. -/
def wfTagL (t : List Char) : Prop := t ≠ [] ∧ ∀ c ∈ t, c ≠ '%' ∧ c ≠ '\n'

/-- A value fit for round-tripping: the value followed by its terminating
newline contains no blank-line sequence `"\n\n"` (so the value neither
contains two consecutive newlines nor ends with a newline). -/
def wfValL (v : List Char) : Prop := hasNLNL (v ++ ['\n']) = false

/-- Well-formedness of a character-level pair list for the round trip. -/
def wfPairsL (ps : List (List Char × List Char)) : Prop :=
  ∀ p ∈ ps, wfTagL p.1 ∧ wfValL p.2

/-- Well-formedness of a string pair list for the round trip. -/
def wfPairs (ps : List (String × String)) : Prop :=
  ∀ p ∈ ps, p.1 ≠ "" ∧ (∀ c ∈ p.1.data, c ≠ '%' ∧ c ≠ '\n') ∧
    hasNLNL (p.2.data ++ ['\n']) = false

theorem hasNLNL_cons_false {c : Char} {cs : List Char}
    (h : hasNLNL (c :: cs) = false) : hasNLNL cs = false := by
  cases cs with
  | nil => rfl
  | cons c2 rest =>
    simp only [hasNLNL, Bool.or_eq_false_iff] at h
    exact h.2

theorem findBreak_none_of_noNLNL : ∀ {cs : List Char},
    hasNLNL cs = false → findBreak cs = none := by
  intro cs
  induction cs with
  | nil => intro _; rfl
  | cons c1 tail ih =>
    cases tail with
    | nil => intro _; rfl
    | cons c2 rest =>
      intro h
      have hne : ¬(c1 = '\n' ∧ c2 = '\n') := by
        rintro ⟨e1, e2⟩
        subst e1; subst e2
        simp [hasNLNL] at h
      simp only [findBreak, if_neg hne, ih (hasNLNL_cons_false h),
        Option.map_none']

theorem hasNLNL_dropWhile (p : Char → Bool) : ∀ {l : List Char},
    hasNLNL l = false → hasNLNL (l.dropWhile p) = false := by
  intro l
  induction l with
  | nil => intro _; rfl
  | cons c tl ih =>
    intro h
    rw [List.dropWhile_cons]
    split
    · exact ih (hasNLNL_cons_false h)
    · exact h

theorem hasNLNL_drop2 {l : List Char} (h : hasNLNL l = false) :
    hasNLNL (l.drop 2) = false := by
  match l with
  | [] => exact h
  | [_] => rfl
  | a :: b :: tl => exact hasNLNL_cons_false (hasNLNL_cons_false h)

theorem matchAt_none_of_noNLNL {cs : List Char}
    (h : hasNLNL cs = false) : matchAt cs = none := by
  cases cs with
  | nil => rfl
  | cons c rest =>
    simp only [matchAt]
    split
    · have hrest : hasNLNL rest = false := hasNLNL_cons_false h
      have h2 : hasNLNL ((rest.dropWhile fun x => x != '%').drop 2) = false :=
        hasNLNL_drop2 (hasNLNL_dropWhile _ hrest)
      rw [findBreak_none_of_noNLNL h2]
    · rfl

theorem scanDesc_nil_of_noNLNL : ∀ (f : Nat) (cs : List Char) (b : Bool),
    hasNLNL cs = false → scanDesc f cs b = [] := by
  intro f
  induction f with
  | zero => intro cs b _; rfl
  | succ f ih =>
    intro cs b h
    cases cs with
    | nil => rfl
    | cons c rest =>
      have hrest : hasNLNL rest = false := hasNLNL_cons_false h
      simp only [scanDesc, matchAt_none_of_noNLNL h]
      split <;> exact ih rest _ hrest

theorem findBreak_eq : ∀ {cs v r : List Char},
    findBreak cs = some (v, r) → cs = v ++ '\n' :: '\n' :: r := by
  intro cs
  induction cs with
  | nil => intro v r h; exact absurd h (by simp [findBreak])
  | cons c1 tail ih =>
    cases tail with
    | nil => intro v r h; exact absurd h (by simp [findBreak])
    | cons c2 rest =>
      intro v r h
      simp only [findBreak] at h
      split at h
      · rename_i hnl
        obtain ⟨e1, e2⟩ := hnl
        subst e1; subst e2
        simp only [Option.some.injEq, Prod.mk.injEq] at h
        obtain ⟨hv, hr⟩ := h
        subst hv; subst hr
        rfl
      · cases hfb : findBreak (c2 :: rest) with
        | none => rw [hfb] at h; exact absurd h (by simp)
        | some p =>
          rw [hfb] at h
          obtain ⟨v', r'⟩ := p
          simp only [Option.map_some', Option.some.injEq, Prod.mk.injEq] at h
          obtain ⟨hv, hr⟩ := h
          subst hr
          rw [← hv]
          simpa using ih hfb

theorem length_dropWhile_le (p : Char → Bool) : ∀ (l : List Char),
    (l.dropWhile p).length ≤ l.length := by
  intro l
  induction l with
  | nil => simp
  | cons c tl ih =>
    rw [List.dropWhile_cons]
    split
    · exact Nat.le_succ_of_le ih
    · simp

theorem matchAt_length : ∀ {cs t v r : List Char},
    matchAt cs = some ((t, v), r) → r.length < cs.length := by
  intro cs t v r h
  cases cs with
  | nil => exact absurd h (by simp [matchAt])
  | cons c rest =>
    simp only [matchAt] at h
    split at h
    · cases hfb : findBreak ((rest.dropWhile fun x => x != '%').drop 2) with
      | none => rw [hfb] at h; exact absurd h (by simp)
      | some p =>
        obtain ⟨v', r'⟩ := p
        rw [hfb] at h
        simp only [Option.some.injEq, Prod.mk.injEq] at h
        obtain ⟨⟨ht, hv⟩, hr⟩ := h
        subst hr
        have he := findBreak_eq hfb
        have h1 : ((rest.dropWhile fun x => x != '%').drop 2).length ≤ rest.length := by
          calc ((rest.dropWhile fun x => x != '%').drop 2).length
              ≤ (rest.dropWhile fun x => x != '%').length := by
                simp [List.length_drop]
            _ ≤ rest.length := length_dropWhile_le _ _
        rw [he] at h1
        simp only [List.length_append, List.length_cons] at h1
        simp only [List.length_cons]
        omega
    · exact absurd h (by simp)

theorem scanDesc_fuel : ∀ (f g : Nat) (cs : List Char) (b : Bool),
    cs.length ≤ f → cs.length ≤ g → scanDesc f cs b = scanDesc g cs b := by
  intro f
  induction f with
  | zero =>
    intro g cs b hf _
    have : cs = [] := List.length_eq_zero.mp (Nat.le_zero.mp hf)
    subst this
    cases g <;> rfl
  | succ f ih =>
    intro g cs b hf hg
    cases cs with
    | nil => cases g <;> rfl
    | cons c rest =>
      cases g with
      | zero => simp at hg
      | succ g =>
        simp only [List.length_cons] at hf hg
        simp only [scanDesc]
        cases hm : matchAt (c :: rest) with
        | none =>
          have h1 : rest.length ≤ f := by omega
          have h2 : rest.length ≤ g := by omega
          split <;> exact ih g rest _ h1 h2
        | some m =>
          obtain ⟨⟨t, v⟩, rest3⟩ := m
          have hlt := matchAt_length hm
          simp only [List.length_cons] at hlt
          have h1 : rest3.length ≤ f := by omega
          have h2 : rest3.length ≤ g := by omega
          have h3 : rest.length ≤ f := by omega
          have h4 : rest.length ≤ g := by omega
          split
          · simp only [ih g rest3 true h1 h2]
          · exact ih g rest _ h3 h4

theorem takeWhile_neq_append : ∀ (t xs : List Char), (∀ c ∈ t, c ≠ '%') →
    ((t ++ '%' :: xs).takeWhile fun x => x != '%') = t := by
  intro t
  induction t with
  | nil => intro xs _; simp [List.takeWhile_cons]
  | cons a tl ih =>
    intro xs h
    have ha : (a != '%') = true := bne_iff_ne.mpr (h a (by simp))
    simp only [List.cons_append, List.takeWhile_cons, ha, if_true]
    rw [ih xs fun c hc => h c (by simp [hc])]

theorem dropWhile_neq_append : ∀ (t xs : List Char), (∀ c ∈ t, c ≠ '%') →
    ((t ++ '%' :: xs).dropWhile fun x => x != '%') = '%' :: xs := by
  intro t
  induction t with
  | nil => intro xs _; simp [List.dropWhile_cons]
  | cons a tl ih =>
    intro xs h
    have ha : (a != '%') = true := bne_iff_ne.mpr (h a (by simp))
    simp only [List.cons_append, List.dropWhile_cons, ha, if_true]
    exact ih xs fun c hc => h c (by simp [hc])

theorem findBreak_append : ∀ (v r : List Char), wfValL v →
    findBreak (v ++ '\n' :: '\n' :: r) = some (v, r) := by
  intro v
  induction v with
  | nil => intro r _; simp [findBreak]
  | cons c tl ih =>
    intro r hv
    cases tl with
    | nil =>
      have hc : ¬(c = '\n') := by
        intro e
        subst e
        simp [wfValL, hasNLNL] at hv
      simp only [List.cons_append, List.nil_append, findBreak]
      rw [if_neg (by tauto)]
      simp [findBreak]
    | cons c2 tl2 =>
      have hcc : ¬(c = '\n' ∧ c2 = '\n') := by
        rintro ⟨e1, e2⟩
        subst e1; subst e2
        simp [wfValL, hasNLNL] at hv
      have hv2 : wfValL (c2 :: tl2) := by
        have h0 : hasNLNL (c :: (c2 :: tl2 ++ ['\n'])) = false := by
          simpa [wfValL] using hv
        simpa [wfValL] using hasNLNL_cons_false h0
      have ih2 := ih r hv2
      simp only [List.cons_append] at ih2 ⊢
      rw [findBreak, if_neg hcc, ih2]
      rfl

theorem matchAt_encode {t v r : List Char} (ht : wfTagL t) (hv : wfValL v) :
    matchAt ('%' :: (t ++ '%' :: '\n' :: (v ++ '\n' :: '\n' :: r))) =
      some ((t, v), r) := by
  have hnp : ∀ c ∈ t, c ≠ '%' := fun c hc => (ht.2 c hc).1
  have htw := takeWhile_neq_append t ('\n' :: (v ++ '\n' :: '\n' :: r)) hnp
  have hdw := dropWhile_neq_append t ('\n' :: (v ++ '\n' :: '\n' :: r)) hnp
  simp only [matchAt, htw, hdw]
  rw [if_pos (by simp [ht.1])]
  have hdrop : (('%' :: '\n' :: (v ++ '\n' :: '\n' :: r)).drop 2) =
      v ++ '\n' :: '\n' :: r := rfl
  rw [hdrop, findBreak_append v r hv]

theorem scanDesc_encodeL :
    ∀ (ps : List (List Char × List Char)) (u : List Char) (f : Nat),
    wfPairsL ps → hasNLNL u = false → (encodeL ps ++ u).length ≤ f →
    scanDesc f (encodeL ps ++ u) true = ps := by
  intro ps
  induction ps with
  | nil =>
    intro u f _ hu _
    simpa [encodeL] using scanDesc_nil_of_noNLNL f u true hu
  | cons p rest ih =>
    intro u f hwf hu hf
    obtain ⟨t, v⟩ := p
    have hwfp := hwf (t, v) (by simp)
    have hwfr : wfPairsL rest := fun q hq => hwf q (by simp [hq])
    have hshape : encodeL ((t, v) :: rest) ++ u =
        '%' :: (t ++ '%' :: '\n' :: (v ++ '\n' :: '\n' :: (encodeL rest ++ u))) := by
      simp [encodeL, List.append_assoc]
    rw [hshape] at hf ⊢
    cases f with
    | zero => simp at hf
    | succ f =>
      have hlen : (encodeL rest ++ u).length ≤ f := by
        simp only [List.length_cons, List.length_append] at hf
        simp only [List.length_append]
        omega
      simp only [scanDesc, matchAt_encode hwfp.1 hwfp.2, if_true]
      rw [ih u f hwfr hu hlen]

theorem encodeDesc_data : ∀ ps : List (String × String),
    (encodeDesc ps).data = encodeL (ps.map fun p => (p.1.data, p.2.data)) := by
  intro ps
  induction ps with
  | nil => rfl
  | cons p rest ih =>
    obtain ⟨t, v⟩ := p
    have h1 : ("%" : String).data = ['%'] := rfl
    have h2 : ("%\n" : String).data = ['%', '\n'] := rfl
    have h3 : ("\n\n" : String).data = ['\n', '\n'] := rfl
    simp [encodeDesc, encodeL, String.data_append, h1, h2, h3, ih]

theorem wfPairsL_of_wfPairs {ps : List (String × String)} (h : wfPairs ps) :
    wfPairsL (ps.map fun p => (p.1.data, p.2.data)) := by
  intro q hq
  simp only [List.mem_map] at hq
  obtain ⟨p, hp, hpq⟩ := hq
  obtain ⟨h1, h2, h3⟩ := h p hp
  subst hpq
  refine ⟨⟨?_, h2⟩, h3⟩
  intro he
  exact h1 (String.ext he)

/-- C1: encoding any finite sequence of `(tag, value)` pairs into the
tag/value text grammar (tag line `%tag%`, value lines, one blank line per
pair) and parsing it back with the `DescIter` record parser yields exactly
the original pairs in order, provided each tag is non-empty and free of `%`
and newline, and each value (followed by its terminating newline) contains
no blank-line sequence. -/
theorem descIter_encodeDesc_roundtrip (ps : List (String × String))
    (h : wfPairs ps) : descIter (encodeDesc ps) = ps := by
  unfold descIter descIterL
  rw [encodeDesc_data]
  have hwfl := wfPairsL_of_wfPairs h
  have hmain := scanDesc_encodeL (ps.map fun p => (p.1.data, p.2.data)) []
    (encodeL (ps.map fun p => (p.1.data, p.2.data))).length hwfl rfl (by simp)
  simp only [List.append_nil] at hmain
  rw [hmain, List.map_map]
  have hid : ((fun p : List Char × List Char => (p.1.asString, p.2.asString)) ∘
      fun p : String × String => (p.1.data, p.2.data)) = id := by
    funext p
    rfl
  rw [hid, List.map_id]

/-- Witness for C1 at a concrete pair list. -/
theorem descIter_encodeDesc_roundtrip_witness :
    wfPairs [("NAME", "foo"), ("DESC", "a b c")] ∧
    descIter (encodeDesc [("NAME", "foo"), ("DESC", "a b c")]) =
      [("NAME", "foo"), ("DESC", "a b c")] :=
  ⟨by unfold wfPairs; decide, descIter_encodeDesc_roundtrip _ (by unfold wfPairs; decide)⟩

/-- C10: an input whose final tag/value block is not followed by a
terminating blank line yields no pair for that final block.  Generally,
appending any trailing text that contains no blank-line sequence (in
particular an unterminated final block) after well-formed encoded pairs
parses to exactly those pairs; concretely, `"%NAME%\nfoo"` and
`"%NAME%\nfoo\n"` parse to the empty sequence while `"%NAME%\nfoo\n\n"`
parses to the single pair `("NAME", "foo")`. -/
theorem descIter_unterminated_final_block :
    (∀ (ps : List (String × String)) (u : String), wfPairs ps →
      hasNLNL u.data = false → descIter (encodeDesc ps ++ u) = ps)
    ∧ descIter "%NAME%\nfoo" = []
    ∧ descIter "%NAME%\nfoo\n" = []
    ∧ descIter "%NAME%\nfoo\n\n" = [("NAME", "foo")] := by
  refine ⟨?_, by decide, by decide, by decide⟩
  intro ps u hwf hu
  unfold descIter descIterL
  rw [String.data_append, encodeDesc_data]
  have hmain := scanDesc_encodeL (ps.map fun p => (p.1.data, p.2.data)) u.data
    (encodeL (ps.map fun p => (p.1.data, p.2.data)) ++ u.data).length
    (wfPairsL_of_wfPairs hwf) hu (le_refl _)
  rw [hmain, List.map_map]
  have hid : ((fun p : List Char × List Char => (p.1.asString, p.2.asString)) ∘
      fun p : String × String => (p.1.data, p.2.data)) = id := by
    funext p
    rfl
  rw [hid, List.map_id]

/-- Witness for C10 at a concrete instance. -/
theorem descIter_unterminated_final_block_witness :
    wfPairs [("VERSION", "2.1-1")] ∧
    hasNLNL ("%NAME%\nfoo" : String).data = false ∧
    descIter (encodeDesc [("VERSION", "2.1-1")] ++ "%NAME%\nfoo") =
      [("VERSION", "2.1-1")] :=
  ⟨by unfold wfPairs; decide, by decide,
    descIter_unterminated_final_block.1 [("VERSION", "2.1-1")] "%NAME%\nfoo"
      (by unfold wfPairs; decide) (by decide)⟩

/-- Embedding of Rust `str::parse::<u64>()`: an optional leading `+`, then
one or more ASCII digits, value below `2^64` (overflow is an error). -/
def parseU64 (s : String) : Option Nat :=
  let digits := match s.data with
    | '+' :: rest => rest
    | cs => cs
  if digits = [] then none
  else if digits.all fun c => c.isDigit then
    let n := digits.foldl (fun acc c => acc * 10 + (c.toNat - 48)) 0
    if n < 2 ^ 64 then some n else none
  else none

/-- Embedding of the `Repo` enum of src/main.rs. -/
inductive Repo where
  | Core
  | Extra
  | Community
  | Multilib
  | Custom (s : String)
  | Unknown
deriving DecidableEq

/-- Embedding of `Repo::from_str_common`. -/
def Repo.from_str_common (s : String) : Option Repo :=
  if s = "core" then some .Core
  else if s = "extra" then some .Extra
  else if s = "community" then some .Community
  else if s = "multilib" then some .Multilib
  else if s = "" then some .Unknown
  else none

/-- Embedding of `impl From<&str> for Repo`: common names, otherwise Custom. -/
def Repo.ofStr (s : String) : Repo :=
  match Repo.from_str_common s with
  | some repo => repo
  | none => .Custom s

/-- Embedding of the `SyncPkg` struct (a package from a sync database desc). -/
structure SyncPkg where
  name : String
  version : String
  repo : Repo
  download_size : Nat
  install_size : Nat
deriving DecidableEq

/-- Errors of `SyncPkg::from_desc`, in the source's wording: the numeric
parse failures raised inside the tag loop (with the offending value), and the
missing-field errors raised when building the struct, in struct-field order
(name, version, download size, install size). -/
inductive SyncErr where
  | parseCSize (v : String)
  | parseISize (v : String)
  | missingName
  | missingVersion
  | missingCSize
  | missingISize
deriving DecidableEq

/-- Accumulator of the `SyncPkg::from_desc` tag loop: the four mutable
`Option` locals. -/
structure SyncAcc where
  name : Option String
  version : Option String
  csize : Option Nat
  isize : Option Nat
deriving DecidableEq

/-- The tag loop of `SyncPkg::from_desc`: later occurrences of a tag
overwrite earlier ones; a CSIZE/ISIZE value that fails to parse returns the
error immediately (the `?` inside the loop). -/
def syncFold : SyncAcc → List (String × String) → Except SyncErr SyncAcc
  | acc, [] => .ok acc
  | acc, (t, v) :: rest =>
    if t = "NAME" then syncFold { acc with name := some v } rest
    else if t = "VERSION" then syncFold { acc with version := some v } rest
    else if t = "CSIZE" then
      match parseU64 v with
      | some n => syncFold { acc with csize := some n } rest
      | none => .error (.parseCSize v)
    else if t = "ISIZE" then
      match parseU64 v with
      | some n => syncFold { acc with isize := some n } rest
      | none => .error (.parseISize v)
    else syncFold acc rest

/-- Embedding of `SyncPkg::from_desc`: run the tag loop over the parsed desc,
then require the fields in the order the Rust struct expression evaluates
them: name, version, download_size (CSIZE), install_size (ISIZE).  The repo
field is set to `Unknown` as in the source. -/
def SyncPkg.from_desc (desc : String) : Except SyncErr SyncPkg :=
  match syncFold ⟨none, none, none, none⟩ (descIter desc) with
  | .error e => .error e
  | .ok acc =>
    match acc.name with
    | none => .error .missingName
    | some name =>
      match acc.version with
      | none => .error .missingVersion
      | some version =>
        match acc.csize with
        | none => .error .missingCSize
        | some csize =>
          match acc.isize with
          | none => .error .missingISize
          | some isize => .ok ⟨name, version, .Unknown, csize, isize⟩

/-- Is an `Except` value a success? -/
def exceptOk {ε α : Type} : Except ε α → Bool
  | .ok _ => true
  | .error _ => false

/-- Does some pair of the list carry the given tag? -/
def hasTag (g : String) (ps : List (String × String)) : Bool :=
  ps.any fun p => p.1 == g

/-- Does some pair of the list carry the given tag with a value that is not
a valid u64? -/
def hasBadSize (g : String) (ps : List (String × String)) : Bool :=
  ps.any fun p => p.1 == g && (parseU64 p.2).isNone

theorem hasTag_cons (g t v : String) (ps : List (String × String)) :
    hasTag g ((t, v) :: ps) = ((t == g) || hasTag g ps) := by
  simp [hasTag]

theorem hasBadSize_cons (g t v : String) (ps : List (String × String)) :
    hasBadSize g ((t, v) :: ps) =
      ((t == g) && (parseU64 v).isNone || hasBadSize g ps) := by
  simp [hasBadSize]

theorem syncFold_ok_char : ∀ (ps : List (String × String)) (acc : SyncAcc),
    exceptOk (syncFold acc ps) =
      (!hasBadSize "CSIZE" ps && !hasBadSize "ISIZE" ps) := by
  intro ps
  induction ps with
  | nil => intro acc; simp [syncFold, exceptOk, hasBadSize]
  | cons p rest ih =>
    intro acc
    obtain ⟨t, v⟩ := p
    rw [hasBadSize_cons, hasBadSize_cons]
    by_cases h1 : t = "NAME"
    · subst h1
      simp [syncFold, ih]
    · by_cases h2 : t = "VERSION"
      · subst h2
        simp [syncFold, ih]
      · by_cases h3 : t = "CSIZE"
        · subst h3
          cases hp : parseU64 v with
          | none => simp [syncFold, exceptOk, hp]
          | some n => simp [syncFold, ih, hp]
        · by_cases h4 : t = "ISIZE"
          · subst h4
            cases hp : parseU64 v with
            | none => simp [syncFold, exceptOk, hp]
            | some n => simp [syncFold, ih, hp]
          · simp [syncFold, ih, h1, h2, h3, h4,
              beq_eq_false_iff_ne.mpr h3, beq_eq_false_iff_ne.mpr h4]

theorem syncFold_fields : ∀ (ps : List (String × String)) (acc acc2 : SyncAcc),
    syncFold acc ps = .ok acc2 →
    acc2.name.isSome = (acc.name.isSome || hasTag "NAME" ps) ∧
    acc2.version.isSome = (acc.version.isSome || hasTag "VERSION" ps) ∧
    acc2.csize.isSome = (acc.csize.isSome || hasTag "CSIZE" ps) ∧
    acc2.isize.isSome = (acc.isize.isSome || hasTag "ISIZE" ps) := by
  intro ps
  induction ps with
  | nil =>
    intro acc acc2 h
    simp only [syncFold, Except.ok.injEq] at h
    subst h
    simp [hasTag]
  | cons p rest ih =>
    intro acc acc2 h
    obtain ⟨t, v⟩ := p
    rw [hasTag_cons, hasTag_cons, hasTag_cons, hasTag_cons]
    by_cases h1 : t = "NAME"
    · subst h1
      simp only [syncFold, if_pos rfl] at h
      have hf := ih _ _ h
      simp only [Option.isSome_some] at hf
      simp_all
    · by_cases h2 : t = "VERSION"
      · subst h2
        simp only [syncFold, if_neg (by decide : ¬("VERSION" : String) = "NAME"),
          if_pos rfl] at h
        have hf := ih _ _ h
        simp only [Option.isSome_some] at hf
        simp_all
      · by_cases h3 : t = "CSIZE"
        · subst h3
          simp only [syncFold, if_neg (by decide : ¬("CSIZE" : String) = "NAME"),
            if_neg (by decide : ¬("CSIZE" : String) = "VERSION"), if_pos rfl] at h
          cases hp : parseU64 v with
          | none => rw [hp] at h; exact absurd h (by simp)
          | some n =>
            rw [hp] at h
            have hf := ih _ _ h
            simp only [Option.isSome_some] at hf
            simp_all
        · by_cases h4 : t = "ISIZE"
          · subst h4
            simp only [syncFold, if_neg (by decide : ¬("ISIZE" : String) = "NAME"),
              if_neg (by decide : ¬("ISIZE" : String) = "VERSION"),
              if_neg (by decide : ¬("ISIZE" : String) = "CSIZE"), if_pos rfl] at h
            cases hp : parseU64 v with
            | none => rw [hp] at h; exact absurd h (by simp)
            | some n =>
              rw [hp] at h
              have hf := ih _ _ h
              simp only [Option.isSome_some] at hf
              simp_all
          · simp only [syncFold, if_neg h1, if_neg h2, if_neg h3, if_neg h4] at h
            have hf := ih _ _ h
            simp_all [beq_eq_false_iff_ne.mpr h1, beq_eq_false_iff_ne.mpr h2,
              beq_eq_false_iff_ne.mpr h3, beq_eq_false_iff_ne.mpr h4]

/-- Decidable equality for `Except`, for evaluating concrete results. -/
instance exceptDecEq {ε α : Type} [DecidableEq ε] [DecidableEq α] :
    DecidableEq (Except ε α) := fun x y =>
  match x, y with
  | .ok a, .ok b =>
    if h : a = b then isTrue (by rw [h]) else isFalse fun he => h (Except.ok.inj he)
  | .ok _, .error _ => isFalse fun he => Except.noConfusion he
  | .error _, .ok _ => isFalse fun he => Except.noConfusion he
  | .error a, .error b =>
    if h : a = b then isTrue (by rw [h])
    else isFalse fun he => h (Except.error.inj he)

/-- C2 (amended): building a `SyncPkg` from a desc succeeds exactly when the
NAME, VERSION, CSIZE and ISIZE tags are all present and every CSIZE/ISIZE
value is a valid unsigned 64-bit integer (VERSION is required too, contrary
to the claim); and for the input `"%NAME%\nfoo\n\n"` the builder fails with
the missing-field error for VERSION, not for CSIZE. -/
theorem syncFromDesc_ok_characterization :
    (∀ d : String,
      exceptOk (SyncPkg.from_desc d) =
        (hasTag "NAME" (descIter d) && hasTag "VERSION" (descIter d) &&
         hasTag "CSIZE" (descIter d) && hasTag "ISIZE" (descIter d) &&
         !hasBadSize "CSIZE" (descIter d) && !hasBadSize "ISIZE" (descIter d)))
    ∧ SyncPkg.from_desc "%NAME%\nfoo\n\n" = .error .missingVersion := by
  constructor
  · intro d
    unfold SyncPkg.from_desc
    cases hs : syncFold ⟨none, none, none, none⟩ (descIter d) with
    | error e =>
      have hchar := syncFold_ok_char (descIter d) ⟨none, none, none, none⟩
      rw [hs] at hchar
      simp only [exceptOk] at hchar
      show false = _
      rcases Bool.and_eq_false_iff.mp hchar.symm with hb | hb <;>
        · rw [hb]
          simp
    | ok acc2 =>
      have hchar := syncFold_ok_char (descIter d) ⟨none, none, none, none⟩
      rw [hs] at hchar
      simp only [exceptOk] at hchar
      obtain ⟨hbc, hbi⟩ := Bool.and_eq_true_iff.mp hchar.symm
      have hf := syncFold_fields (descIter d) ⟨none, none, none, none⟩ acc2 hs
      simp only [Option.isSome_none, Bool.false_or] at hf
      obtain ⟨n, vr, cz, iz⟩ := acc2
      obtain ⟨hn, hv, hc, hi⟩ := hf
      simp only at hn hv hc hi
      have hbc2 : hasBadSize "CSIZE" (descIter d) = false := by simpa using hbc
      have hbi2 : hasBadSize "ISIZE" (descIter d) = false := by simpa using hbi
      rw [hbc2, hbi2, ← hn, ← hv, ← hc, ← hi]
      cases n <;> cases vr <;> cases cz <;> cases iz <;> simp [exceptOk]
  · rfl

/-- Counterexample for C2 as stated: a record with NAME, CSIZE and ISIZE all
present and numeric but without VERSION still fails to build (the claim's
"fails exactly when NAME, CSIZE, or ISIZE is absent or non-numeric" is
violated), and the record `"%NAME%\nfoo\n\n"` produces the missing-VERSION
error, not an error naming CSIZE. -/
theorem syncFromDesc_counterexample :
    SyncPkg.from_desc "%NAME%\nx\n\n%CSIZE%\n1\n\n%ISIZE%\n2\n\n" =
      .error .missingVersion ∧
    SyncPkg.from_desc "%NAME%\nfoo\n\n" = .error .missingVersion ∧
    SyncPkg.from_desc "%NAME%\nfoo\n\n" ≠ .error .missingCSize := by
  refine ⟨by decide, by decide, by decide⟩

/-- Embedding of the `LocalPkg` struct (a locally installed package). -/
structure LocalPkg where
  name : String
  version : String
  size : Nat
deriving DecidableEq

/-- Errors of `LocalPkg::from_desc`: the SIZE parse failure raised inside the
tag loop, then the missing-field errors in struct-field order. -/
inductive LocalErr where
  | parseSize (v : String)
  | missingName
  | missingVersion
  | missingSize
deriving DecidableEq

/-- Accumulator of the `LocalPkg::from_desc` tag loop. -/
structure LocalAcc where
  name : Option String
  version : Option String
  size : Option Nat
deriving DecidableEq

/-- The tag loop of `LocalPkg::from_desc`. -/
def localFold : LocalAcc → List (String × String) → Except LocalErr LocalAcc
  | acc, [] => .ok acc
  | acc, (t, v) :: rest =>
    if t = "NAME" then localFold { acc with name := some v } rest
    else if t = "VERSION" then localFold { acc with version := some v } rest
    else if t = "SIZE" then
      match parseU64 v with
      | some n => localFold { acc with size := some n } rest
      | none => .error (.parseSize v)
    else localFold acc rest

/-- Embedding of `LocalPkg::from_desc`: run the tag loop, then require name,
version and size in struct-field order (the source has no default for a
missing SIZE: `size.ok_or_else(...)?`). -/
def LocalPkg.from_desc (desc : String) : Except LocalErr LocalPkg :=
  match localFold ⟨none, none, none⟩ (descIter desc) with
  | .error e => .error e
  | .ok acc =>
    match acc.name with
    | none => .error .missingName
    | some name =>
      match acc.version with
      | none => .error .missingVersion
      | some version =>
        match acc.size with
        | none => .error .missingSize
        | some size => .ok ⟨name, version, size⟩

/-- Embedding of Rust `str::starts_with`: prefix test on the characters
(kernel-reducible, unlike `String.startsWith`). -/
def strStartsWith (s pre : String) : Bool := pre.data.isPrefixOf s.data

/-- An entry of the local database directory (`db_path/local/<dir>/desc`) as
seen by `local_package_size`: the directory name, whether it is a directory,
and the text of its `desc` file (the embedding assumes the desc file opens
and reads successfully, which is the only case the claims exercise). -/
structure DirEnt where
  name : String
  isDir : Bool
  desc : String
deriving DecidableEq

/-- Errors of `local_package_size`: the SIZE parse failure
("unable to parse package size number") and the final
"no local package named ... found" error. -/
inductive LookupErr where
  | parseSize (v : String)
  | notFound (pkgname : String)
deriving DecidableEq

/-- The inner tag loop of `local_package_size` over one desc: a NAME tag
matching `pkgname` sets `found`; a NAME mismatch breaks to the next entry;
a SIZE tag returns its parse result immediately. -/
def scanPairs (pkgname : String) : Bool → List (String × String) →
    Bool × Option (Except LookupErr Nat)
  | found, [] => (found, none)
  | found, (t, v) :: rest =>
    if t = "NAME" then
      if v = pkgname then scanPairs pkgname true rest
      else (found, none)
    else if t = "SIZE" then
      (found, some (match parseU64 v with
        | some n => Except.ok n
        | none => Except.error (.parseSize v)))
    else scanPairs pkgname found rest

/-- The outer directory loop of `local_package_size`: skip entries that are
not directories or whose name does not start with `pkgname`; otherwise scan
the entry's desc; a SIZE result returns immediately, otherwise carry the
`found_pkg` flag on.  At the end, a found package without SIZE has size 0. -/
def localSizeGo (pkgname : String) : Bool → List DirEnt → Except LookupErr Nat
  | found, [] => if found then .ok 0 else .error (.notFound pkgname)
  | found, e :: rest =>
    if e.isDir && strStartsWith e.name pkgname then
      match scanPairs pkgname found (descIter e.desc) with
      | (found2, none) => localSizeGo pkgname found2 rest
      | (_, some r) => r
    else localSizeGo pkgname found rest

/-- Embedding of `local_package_size`: the `db_path/local` directory is
modelled as the list of its entries. -/
def local_package_size (db : List DirEnt) (pkgname : String) :
    Except LookupErr Nat :=
  localSizeGo pkgname false db

theorem hasBadSize_false_of_hasTag_false {g : String}
    {ps : List (String × String)} (h : hasTag g ps = false) :
    hasBadSize g ps = false := by
  induction ps with
  | nil => rfl
  | cons p rest ih =>
    obtain ⟨t, v⟩ := p
    rw [hasTag_cons] at h
    rw [hasBadSize_cons]
    rcases Bool.or_eq_false_iff.mp h with ⟨h1, h2⟩
    simp [h1, ih h2]

theorem localFold_ok_char : ∀ (ps : List (String × String)) (acc : LocalAcc),
    exceptOk (localFold acc ps) = !hasBadSize "SIZE" ps := by
  intro ps
  induction ps with
  | nil => intro acc; simp [localFold, exceptOk, hasBadSize]
  | cons p rest ih =>
    intro acc
    obtain ⟨t, v⟩ := p
    rw [hasBadSize_cons]
    by_cases h1 : t = "NAME"
    · subst h1
      simp [localFold, ih]
    · by_cases h2 : t = "VERSION"
      · subst h2
        simp [localFold, ih]
      · by_cases h3 : t = "SIZE"
        · subst h3
          cases hp : parseU64 v with
          | none => simp [localFold, exceptOk, hp]
          | some n => simp [localFold, ih, hp]
        · simp [localFold, ih, h1, h2, h3, beq_eq_false_iff_ne.mpr h3]

theorem localFold_fields : ∀ (ps : List (String × String)) (acc acc2 : LocalAcc),
    localFold acc ps = .ok acc2 →
    acc2.name.isSome = (acc.name.isSome || hasTag "NAME" ps) ∧
    acc2.version.isSome = (acc.version.isSome || hasTag "VERSION" ps) ∧
    acc2.size.isSome = (acc.size.isSome || hasTag "SIZE" ps) := by
  intro ps
  induction ps with
  | nil =>
    intro acc acc2 h
    simp only [localFold, Except.ok.injEq] at h
    subst h
    simp [hasTag]
  | cons p rest ih =>
    intro acc acc2 h
    obtain ⟨t, v⟩ := p
    rw [hasTag_cons, hasTag_cons, hasTag_cons]
    by_cases h1 : t = "NAME"
    · subst h1
      simp only [localFold, if_pos rfl] at h
      have hf := ih _ _ h
      simp only [Option.isSome_some] at hf
      simp_all
    · by_cases h2 : t = "VERSION"
      · subst h2
        simp only [localFold, if_neg (by decide : ¬("VERSION" : String) = "NAME"),
          if_pos rfl] at h
        have hf := ih _ _ h
        simp only [Option.isSome_some] at hf
        simp_all
      · by_cases h3 : t = "SIZE"
        · subst h3
          simp only [localFold, if_neg (by decide : ¬("SIZE" : String) = "NAME"),
            if_neg (by decide : ¬("SIZE" : String) = "VERSION"), if_pos rfl] at h
          cases hp : parseU64 v with
          | none => rw [hp] at h; exact absurd h (by simp)
          | some n =>
            rw [hp] at h
            have hf := ih _ _ h
            simp only [Option.isSome_some] at hf
            simp_all
        · simp only [localFold, if_neg h1, if_neg h2, if_neg h3] at h
          have hf := ih _ _ h
          simp_all [beq_eq_false_iff_ne.mpr h1, beq_eq_false_iff_ne.mpr h2,
            beq_eq_false_iff_ne.mpr h3]

theorem scanPairs_no_size : ∀ (ps : List (String × String)) (pkgname : String)
    (found : Bool), hasTag "SIZE" ps = false →
    (∀ p ∈ ps, p.1 = "NAME" → p.2 = pkgname) →
    scanPairs pkgname found ps = (found || hasTag "NAME" ps, none) := by
  intro ps
  induction ps with
  | nil => intro pkgname found _ _; simp [scanPairs, hasTag]
  | cons p rest ih =>
    intro pkgname found hsz hnm
    obtain ⟨t, v⟩ := p
    rw [hasTag_cons] at hsz ⊢
    rcases Bool.or_eq_false_iff.mp hsz with ⟨hsz1, hsz2⟩
    by_cases h1 : t = "NAME"
    · subst h1
      have hveq : v = pkgname := hnm ("NAME", v) (by simp) rfl
      simp only [scanPairs, if_pos rfl, if_pos hveq]
      rw [ih pkgname true hsz2 fun q hq => hnm q (by simp [hq])]
      simp
    · have h3 : ¬ t = "SIZE" := by
        intro he
        subst he
        simp at hsz1
      simp only [scanPairs, if_neg h1, if_neg h3]
      rw [ih pkgname found hsz2 fun q hq => hnm q (by simp [hq])]
      simp [beq_eq_false_iff_ne.mpr h1]

/-- C3 (amended): for a desc with NAME and VERSION but no SIZE tag the
`LocalPkg::from_desc` builder FAILS with the missing-size error (SIZE absent
is an error for the builder, contrary to the claim), while
`local_package_size` applied to a database containing the queried package
whose desc has a matching NAME and no SIZE tag returns 0. -/
theorem localPkg_missing_size_behavior :
    (∀ d : String, hasTag "NAME" (descIter d) = true →
      hasTag "VERSION" (descIter d) = true →
      hasTag "SIZE" (descIter d) = false →
      LocalPkg.from_desc d = .error .missingSize)
    ∧ (∀ (dirname desc pkgname : String),
        strStartsWith dirname pkgname = true →
        hasTag "SIZE" (descIter desc) = false →
        hasTag "NAME" (descIter desc) = true →
        (∀ p ∈ descIter desc, p.1 = "NAME" → p.2 = pkgname) →
        local_package_size [⟨dirname, true, desc⟩] pkgname = .ok 0) := by
  constructor
  · intro d hn hv hs
    have hbad := hasBadSize_false_of_hasTag_false hs
    have hchar := localFold_ok_char (descIter d) ⟨none, none, none⟩
    rw [hbad] at hchar
    simp only [Bool.not_false] at hchar
    cases hf : localFold ⟨none, none, none⟩ (descIter d) with
    | error e => rw [hf] at hchar; simp [exceptOk] at hchar
    | ok acc2 =>
      have hfl := localFold_fields (descIter d) _ _ hf
      simp only [Option.isSome_none, Bool.false_or] at hfl
      obtain ⟨n, vr, sz⟩ := acc2
      obtain ⟨h1, h2, h3⟩ := hfl
      simp only at h1 h2 h3
      unfold LocalPkg.from_desc
      rw [hf]
      rw [hn] at h1
      rw [hv] at h2
      rw [hs] at h3
      cases n with
      | none => simp at h1
      | some nm =>
        cases vr with
        | none => simp at h2
        | some vv =>
          cases sz with
          | some s => simp at h3
          | none => rfl
  · intro dirname desc pkgname hstart hsz hnm hall
    have hsp := scanPairs_no_size (descIter desc) pkgname false hsz hall
    rw [hnm] at hsp
    simp only [Bool.false_or] at hsp
    simp [local_package_size, localSizeGo, hstart, hsp]

/-- Witness for C3's amended claim at a concrete desc and database. -/
theorem localPkg_missing_size_behavior_witness :
    LocalPkg.from_desc "%NAME%\nfoo\n\n%VERSION%\n1-1\n\n" =
      .error .missingSize ∧
    local_package_size [⟨"foo-1-1", true, "%NAME%\nfoo\n\n%VERSION%\n1-1\n\n"⟩]
      "foo" = .ok 0 :=
  ⟨localPkg_missing_size_behavior.1 "%NAME%\nfoo\n\n%VERSION%\n1-1\n\n"
      (by decide) (by decide) (by decide),
    localPkg_missing_size_behavior.2 "foo-1-1" "%NAME%\nfoo\n\n%VERSION%\n1-1\n\n"
      "foo" (by decide) (by decide) (by decide) (by decide)⟩

/-- Counterexample for C3 as stated: a local record with NAME and VERSION but
no SIZE does NOT build successfully with installed size 0; the builder
returns the missing-size error. -/
theorem localPkg_size_counterexample :
    LocalPkg.from_desc "%NAME%\nfoo\n\n%VERSION%\n1-1\n\n" =
      .error .missingSize ∧
    LocalPkg.from_desc "%NAME%\nfoo\n\n%VERSION%\n1-1\n\n" ≠
      .ok ⟨"foo", "1-1", 0⟩ := by
  refine ⟨by decide, by decide⟩

/-- The decompression strategies of `SyncPkg::read_one_db`. -/
inductive Compression where
  | zstd
  | gzip
  | uncompressed
deriving DecidableEq

/-- Embedding of the magic sniffing in `SyncPkg::read_one_db`: read exactly 4
bytes (an error if the stream is shorter — `read_exact` fails), rewind, then:
zstd if the first four bytes are `28 B5 2F FD`, gzip if the first two are
`1F 8B`, otherwise treat the stream as uncompressed. -/
def sniffCompression (bs : List Nat) : Except String Compression :=
  if bs.length < 4 then .error "failed to read file header"
  else if bs.take 4 = [0x28, 0xb5, 0x2f, 0xfd] then .ok .zstd
  else if bs.take 2 = [0x1f, 0x8b] then .ok .gzip
  else .ok .uncompressed

/-- The archive decoder: dispatch the (rewound) byte stream to the zstd or
gzip decoder chosen by the sniffed magic, or pass it through unchanged.  The
decoders themselves are external crates (`zstd`, `flate2`) and are taken as
function parameters. -/
def decodeStream (zstdD gzipD : List Nat → List Nat) (bs : List Nat) :
    Except String (List Nat) :=
  match sniffCompression bs with
  | .error e => .error e
  | .ok .zstd => .ok (zstdD bs)
  | .ok .gzip => .ok (gzipD bs)
  | .ok .uncompressed => .ok bs

/-- C4 (amended): for streams of at least 4 bytes the decoder selects the
strategy solely from the leading magic bytes — zstd for `28 B5 2F FD`, gzip
for a `1F 8B` prefix, pass-through otherwise — and, whenever the external
decoders invert the fixtures' compressors, the decoded output equals the
pre-compression input; streams shorter than 4 bytes fail with a header-read
error instead of being passed through. -/
theorem decodeStream_magic_dispatch :
    (∀ (zstdC zstdD : List Nat → List Nat) (gzipD : List Nat → List Nat)
        (input : List Nat),
      (∀ x, zstdD (zstdC x) = x) →
      (zstdC input).take 4 = [0x28, 0xb5, 0x2f, 0xfd] →
      decodeStream zstdD gzipD (zstdC input) = .ok input)
    ∧ (∀ (gzipC gzipD : List Nat → List Nat) (zstdD : List Nat → List Nat)
        (input : List Nat),
      (∀ x, gzipD (gzipC x) = x) →
      (gzipC input).take 2 = [0x1f, 0x8b] →
      4 ≤ (gzipC input).length →
      decodeStream zstdD gzipD (gzipC input) = .ok input)
    ∧ (∀ (zstdD gzipD : List Nat → List Nat) (bs : List Nat),
      4 ≤ bs.length →
      bs.take 4 ≠ [0x28, 0xb5, 0x2f, 0xfd] →
      bs.take 2 ≠ [0x1f, 0x8b] →
      decodeStream zstdD gzipD bs = .ok bs)
    ∧ (∀ bs bs2 : List Nat, bs.take 4 = bs2.take 4 →
      sniffCompression bs = sniffCompression bs2) := by
  refine ⟨?_, ?_, ?_, ?_⟩
  · intro zstdC zstdD gzipD input hinv hmagic
    have hlen : ¬((zstdC input).length < 4) := by
      have := congrArg List.length hmagic
      simp [List.length_take] at this
      omega
    unfold decodeStream sniffCompression
    rw [if_neg hlen, if_pos hmagic, hinv]
  · intro gzipC gzipD zstdD input hinv hmagic hlen
    have h2 : (gzipC input).take 4 ≠ [0x28, 0xb5, 0x2f, 0xfd] := by
      intro he
      have : (gzipC input).take 2 = [0x28, 0xb5] := by
        rw [show (2 : Nat) = min 2 4 from rfl, ← List.take_take, he]
        rfl
      rw [hmagic] at this
      simp at this
    unfold decodeStream sniffCompression
    rw [if_neg (by omega), if_neg h2, if_pos hmagic, hinv]
  · intro zstdD gzipD bs hlen h4 h2
    unfold decodeStream sniffCompression
    rw [if_neg (by omega), if_neg h4, if_neg h2]
  · intro bs bs2 htake
    have hlen : bs.length < 4 ↔ bs2.length < 4 := by
      have h1 := congrArg List.length htake
      simp only [List.length_take] at h1
      omega
    have htake2 : bs.take 2 = bs2.take 2 := by
      rw [show (2 : Nat) = min 2 4 from rfl, ← List.take_take, htake,
        List.take_take]
    unfold sniffCompression
    by_cases hl : bs.length < 4
    · rw [if_pos hl, if_pos (hlen.mp hl)]
    · rw [if_neg hl, if_neg (fun hc => hl (hlen.mpr hc)), htake, htake2]

/-- Witness for C4's amended claim: concrete model compressors prepending the
zstd and gzip magics, and a plain 4-byte stream. -/
theorem decodeStream_magic_dispatch_witness :
    decodeStream (fun bs => bs.drop 4) id
      ([0x28, 0xb5, 0x2f, 0xfd] ++ [7, 8, 9]) = .ok [7, 8, 9] ∧
    decodeStream id (fun bs => bs.drop 4)
      ([0x1f, 0x8b, 0, 0] ++ [5, 6]) = .ok [5, 6] ∧
    decodeStream id id [1, 2, 3, 4] = .ok [1, 2, 3, 4] := by
  refine ⟨?_, ?_, ?_⟩
  · exact decodeStream_magic_dispatch.1
      (fun x => [0x28, 0xb5, 0x2f, 0xfd] ++ x) (fun bs => bs.drop 4) id
      [7, 8, 9] (fun x => rfl) rfl
  · exact decodeStream_magic_dispatch.2.1
      (fun x => [0x1f, 0x8b, 0, 0] ++ x) (fun bs => bs.drop 4) id
      [5, 6] (fun x => rfl) rfl (by decide)
  · exact decodeStream_magic_dispatch.2.2.1 id id [1, 2, 3, 4]
      (by decide) (by decide) (by decide)

/-- Counterexample for C4 as stated: a 1-byte stream is not "treated as
already uncompressed" — reading the 4-byte magic fails and `read_one_db`
errors out. -/
theorem decodeStream_short_counterexample :
    decodeStream id id [97] = .error "failed to read file header" ∧
    decodeStream id id [97] ≠ .ok [97] := by
  refine ⟨rfl, by decide⟩

/-- A tar entry as seen by `read_one_db` after decompression: its path (as
components), whether the tar header marks it a regular file, and its content
as text (the embedding assumes qualifying entries read as UTF-8 text, which
is the only case the claims exercise). -/
structure Entry where
  path : List String
  isFile : Bool
  content : String
deriving DecidableEq

/-- The entry filter of `read_one_db`: the tar header says regular file AND
the path's file name is exactly "desc".  Nothing else is inspected: the
containing directory name is never decomposed and there is no name filter. -/
def qualifies (e : Entry) : Bool :=
  e.isFile && (e.path.getLast? == some "desc")

/-- The package index assembled by the loaders (`HashMap<String, SyncPkg>`),
modelled as a lookup function. -/
def Pkgmap : Type := String → Option SyncPkg

/-- `HashMap::insert`: the new binding replaces any existing one. -/
def Pkgmap.insert (m : Pkgmap) (k : String) (p : SyncPkg) : Pkgmap :=
  fun k2 => if k2 = k then some p else m k2

/-- The empty package index. -/
def emptyMap : Pkgmap := fun _ => none

/-- Join path components with `/` for error messages. -/
def pathString : List String → String
  | [] => ""
  | [c] => c
  | c :: rest => c ++ "/" ++ pathString rest

/-- The entry loop of `read_one_db`: for each qualifying entry parse its desc;
a parse failure aborts the walk with an error naming the entry's path, keeping
the map as already filled; a success sets the record's repo and inserts it
into the map keyed by the record's NAME value. -/
def loadEntries (repo : Repo) : Pkgmap → List Entry →
    Pkgmap × Except String Unit
  | m, [] => (m, .ok ())
  | m, e :: rest =>
    if qualifies e then
      match SyncPkg.from_desc e.content with
      | .error _ => (m, .error ("failed to parse " ++ pathString e.path))
      | .ok pkg => loadEntries repo (m.insert pkg.name { pkg with repo := repo }) rest
    else
      loadEntries repo m rest

/-- The characters before the last `.` of a file name, if any `.` exists. -/
def beforeLastDot : List Char → Option (List Char)
  | [] => none
  | c :: rest =>
    match beforeLastDot rest with
    | some p => some (c :: p)
    | none => if c = '.' then some [] else none

/-- Embedding of Rust `Path::file_stem` for a bare file name: `none` for the
empty name; the whole name when there is no dot or only a leading dot;
otherwise the portion before the last dot. -/
def fileStem (name : String) : Option String :=
  if name = "" then none
  else
    match beforeLastDot name.data with
    | none => some name
    | some [] => some name
    | some pre => some pre.asString

/-- An archive passed to `read_one_db`: the database file name (for the repo
stem) and its tar entries after decompression. -/
structure Archive where
  path : String
  entries : List Entry

/-- Embedding of `SyncPkg::read_one_db`: derive the repo from the file stem of
the database path, then walk the entries into the map.  (The magic sniffing
and tar decoding feed the entry list and are modelled by `decodeStream`.) -/
def read_one_db (m : Pkgmap) (ar : Archive) : Pkgmap × Except String Unit :=
  match fileStem ar.path with
  | none => (m, .error "db path has no filestem")
  | some stem => loadEntries (Repo.ofStr stem) m ar.entries

/-- The record a single entry contributes: present iff the entry qualifies
and its desc parses. -/
def parsedRecord (e : Entry) : Option SyncPkg :=
  if qualifies e then
    match SyncPkg.from_desc e.content with
    | .ok pkg => some pkg
    | .error _ => none
  else none

/-- The last record with the given NAME among the entries of an archive
(later entries shadow earlier ones). -/
def findLastRecord (es : List Entry) (n : String) : Option SyncPkg :=
  match es with
  | [] => none
  | e :: rest =>
    match findLastRecord rest n with
    | some p => some p
    | none =>
      match parsedRecord e with
      | some p => if p.name = n then some p else none
      | none => none

/-- Do all qualifying entries of the list parse successfully? -/
def loadOk (es : List Entry) : Bool :=
  es.all fun e => !qualifies e || exceptOk (SyncPkg.from_desc e.content)

theorem loadEntries_lookup : ∀ (es : List Entry) (repo : Repo) (m : Pkgmap)
    (n : String), loadOk es = true →
    (loadEntries repo m es).2 = .ok () ∧
    (loadEntries repo m es).1 n =
      (match findLastRecord es n with
       | some p => some { p with repo := repo }
       | none => m n) := by
  intro es
  induction es with
  | nil => intro repo m n _; exact ⟨rfl, rfl⟩
  | cons e rest ih =>
    intro repo m n hok
    simp only [loadOk, List.all_cons] at hok
    obtain ⟨h1, h2⟩ := Bool.and_eq_true_iff.mp hok
    have h2l : loadOk rest = true := h2
    by_cases hq : qualifies e = true
    · rw [hq] at h1
      simp only [Bool.not_true, Bool.false_or] at h1
      cases hfd : SyncPkg.from_desc e.content with
      | error err => rw [hfd] at h1; simp [exceptOk] at h1
      | ok pkg =>
        have hle : loadEntries repo m (e :: rest) =
            loadEntries repo (m.insert pkg.name { pkg with repo := repo }) rest := by
          simp [loadEntries, hq, hfd]
        rw [hle]
        obtain ⟨hok2, hlook⟩ :=
          ih repo (m.insert pkg.name { pkg with repo := repo }) n h2l
        refine ⟨hok2, ?_⟩
        rw [hlook]
        have hpr : parsedRecord e = some pkg := by simp [parsedRecord, hq, hfd]
        cases hfr : findLastRecord rest n with
        | some p => simp [findLastRecord, hfr]
        | none =>
          simp only [findLastRecord, hfr, hpr]
          by_cases hn : pkg.name = n
          · simp [Pkgmap.insert, hn]
          · simp only [Pkgmap.insert]
            rw [if_neg (fun h : n = pkg.name => hn h.symm), if_neg hn]
    · simp only [Bool.not_eq_true] at hq
      have hle : loadEntries repo m (e :: rest) = loadEntries repo m rest := by
        simp [loadEntries, hq]
      have hpr : parsedRecord e = none := by simp [parsedRecord, hq]
      rw [hle]
      obtain ⟨hok2, hlook⟩ := ih repo m n h2l
      refine ⟨hok2, ?_⟩
      rw [hlook]
      cases hfr : findLastRecord rest n with
      | some p => simp [findLastRecord, hfr]
      | none => simp [findLastRecord, hfr, hpr]

/-- C5: after loading archive A and then archive B, a package name present in
both archives maps to the record parsed from archive B (its last occurrence
there), carrying B's repo id derived from B's file stem. -/
theorem read_one_db_last_write_wins :
    ∀ (m : Pkgmap) (A B : Archive) (n stemA stemB : String) (pA pB : SyncPkg),
    fileStem A.path = some stemA → fileStem B.path = some stemB →
    loadOk A.entries = true → loadOk B.entries = true →
    findLastRecord A.entries n = some pA →
    findLastRecord B.entries n = some pB →
    (read_one_db (read_one_db m A).1 B).1 n =
      some { pB with repo := Repo.ofStr stemB } := by
  intro m A B n stemA stemB pA pB hsa hsb hokA hokB hfa hfb
  have hstep : (read_one_db (read_one_db m A).1 B).1 n =
      (loadEntries (Repo.ofStr stemB) (read_one_db m A).1 B.entries).1 n := by
    simp only [read_one_db, hsb]
  rw [hstep,
    (loadEntries_lookup B.entries (Repo.ofStr stemB) (read_one_db m A).1 n hokB).2,
    hfb]

/-- Witness for C5 at the spec's concrete scenario: package x at size 100 in
repo a, then x at size 200 in repo b; the index ends with b's record. -/
theorem read_one_db_last_write_wins_witness :
    (read_one_db
      (read_one_db emptyMap
        ⟨"a.db", [⟨["x-1-1", "desc"], true,
          "%NAME%\nx\n\n%VERSION%\n1-1\n\n%CSIZE%\n100\n\n%ISIZE%\n100\n\n"⟩]⟩).1
      ⟨"b.db", [⟨["x-2-1", "desc"], true,
        "%NAME%\nx\n\n%VERSION%\n2-1\n\n%CSIZE%\n200\n\n%ISIZE%\n200\n\n"⟩]⟩).1
      "x" = some ⟨"x", "2-1", .Custom "b", 200, 200⟩ :=
  read_one_db_last_write_wins emptyMap
    ⟨"a.db", [⟨["x-1-1", "desc"], true,
      "%NAME%\nx\n\n%VERSION%\n1-1\n\n%CSIZE%\n100\n\n%ISIZE%\n100\n\n"⟩]⟩
    ⟨"b.db", [⟨["x-2-1", "desc"], true,
      "%NAME%\nx\n\n%VERSION%\n2-1\n\n%CSIZE%\n200\n\n%ISIZE%\n200\n\n"⟩]⟩
    "x" "a" "b" ⟨"x", "1-1", .Unknown, 100, 100⟩ ⟨"x", "2-1", .Unknown, 200, 200⟩
    rfl rfl (by decide) (by decide) (by decide) (by decide)

/-- C6 (amended): when loading one archive, an entry is parsed and inserted
iff it is a regular file whose file name is exactly "desc"; the containing
directory name is never decomposed (entries whose directory name has fewer
than two hyphens are processed like any other) and there is no name-filter
predicate; the insertion key is the parsed record's NAME value, the last
qualifying record per name winning. -/
theorem read_one_db_qualifying :
    (∀ e : Entry, qualifies e = true ↔
      (e.isFile = true ∧ e.path.getLast? = some "desc"))
    ∧ (∀ (ar : Archive) (m : Pkgmap) (stem : String) (n : String),
        fileStem ar.path = some stem → loadOk ar.entries = true →
        (read_one_db m ar).1 n =
          (match findLastRecord ar.entries n with
           | some p => some { p with repo := Repo.ofStr stem }
           | none => m n)) := by
  constructor
  · intro e
    simp [qualifies, Bool.and_eq_true]
  · intro ar m stem n hs hok
    have hstep : (read_one_db m ar).1 n =
        (loadEntries (Repo.ofStr stem) m ar.entries).1 n := by
      simp only [read_one_db, hs]
    rw [hstep, (loadEntries_lookup ar.entries (Repo.ofStr stem) m n hok).2]

/-- Witness for C6's amended claim at a concrete archive. -/
theorem read_one_db_qualifying_witness :
    (read_one_db emptyMap ⟨"r.db", [⟨["pkg-1-1", "desc"], true,
      "%NAME%\nfoo\n\n%VERSION%\n1-1\n\n%CSIZE%\n5\n\n%ISIZE%\n7\n\n"⟩]⟩).1
      "foo" = some ⟨"foo", "1-1", .Custom "r", 5, 7⟩ :=
  read_one_db_qualifying.2
    ⟨"r.db", [⟨["pkg-1-1", "desc"], true,
      "%NAME%\nfoo\n\n%VERSION%\n1-1\n\n%CSIZE%\n5\n\n%ISIZE%\n7\n\n"⟩]⟩
    emptyMap "r" "foo" rfl (by decide)

/-- Counterexample for C6 as stated: an entry whose containing directory name
is "nodash" (fewer than two hyphens, so the claim says it is silently
skipped) IS parsed and inserted by `read_one_db`, keyed by its NAME value. -/
theorem read_one_db_dirname_counterexample :
    (loadEntries (Repo.Custom "r") emptyMap [⟨["nodash", "desc"], true,
      "%NAME%\nfoo\n\n%VERSION%\n1-1\n\n%CSIZE%\n5\n\n%ISIZE%\n7\n\n"⟩]).1
      "foo" = some ⟨"foo", "1-1", .Custom "r", 5, 7⟩ ∧
    (loadEntries (Repo.Custom "r") emptyMap [⟨["nodash", "desc"], true,
      "%NAME%\nfoo\n\n%VERSION%\n1-1\n\n%CSIZE%\n5\n\n%ISIZE%\n7\n\n"⟩]).2 =
      .ok () := by
  refine ⟨by decide, by decide⟩

theorem loadEntries_append : ∀ (xs ys : List Entry) (repo : Repo) (m : Pkgmap),
    loadEntries repo m (xs ++ ys) =
      (match loadEntries repo m xs with
       | (m2, .ok _) => loadEntries repo m2 ys
       | (m2, .error e) => (m2, .error e)) := by
  intro xs
  induction xs with
  | nil => intro ys repo m; rfl
  | cons e rest ih =>
    intro ys repo m
    by_cases hq : qualifies e = true
    · cases hfd : SyncPkg.from_desc e.content with
      | error err => simp [loadEntries, hq, hfd]
      | ok pkg => simp [loadEntries, hq, hfd, ih]
    · simp only [Bool.not_eq_true] at hq
      simp [loadEntries, hq, ih]

/-- C7: if a qualifying entry's desc fails to parse, the archive walk stops
with an error that wraps that entry's path, and the map keeps everything the
preceding entries inserted (loading is at-least-partial, not rolled back). -/
theorem read_one_db_partial_error :
    ∀ (repo : Repo) (m m1 : Pkgmap) (es1 es2 : List Entry) (e : Entry),
    loadEntries repo m es1 = (m1, .ok ()) →
    qualifies e = true →
    exceptOk (SyncPkg.from_desc e.content) = false →
    loadEntries repo m (es1 ++ e :: es2) =
      (m1, .error ("failed to parse " ++ pathString e.path)) := by
  intro repo m m1 es1 es2 e h1 hq hbad
  rw [loadEntries_append, h1]
  cases hfd : SyncPkg.from_desc e.content with
  | ok pkg => rw [hfd] at hbad; simp [exceptOk] at hbad
  | error err => simp [loadEntries, hq, hfd]

/-- Witness for C7: one good entry inserts foo, then a bad entry aborts with
an error naming its path while foo's record stays in the map. -/
theorem read_one_db_partial_error_witness :
    loadEntries Repo.Core emptyMap
      ([⟨["foo-1-1", "desc"], true,
        "%NAME%\nfoo\n\n%VERSION%\n1-1\n\n%CSIZE%\n5\n\n%ISIZE%\n7\n\n"⟩] ++
       ⟨["bad-2-2", "desc"], true, "%NAME%\nbad\n\n"⟩ :: []) =
      (emptyMap.insert "foo" ⟨"foo", "1-1", Repo.Core, 5, 7⟩,
       .error "failed to parse bad-2-2/desc") :=
  read_one_db_partial_error Repo.Core emptyMap
    (emptyMap.insert "foo" ⟨"foo", "1-1", Repo.Core, 5, 7⟩)
    [⟨["foo-1-1", "desc"], true,
      "%NAME%\nfoo\n\n%VERSION%\n1-1\n\n%CSIZE%\n5\n\n%ISIZE%\n7\n\n"⟩] []
    ⟨["bad-2-2", "desc"], true, "%NAME%\nbad\n\n"⟩ rfl rfl rfl

/-- The on-disk cache file as seen by `download_to_disk`: whether the path is
a regular file, its bytes, and its modification time (seconds since epoch). -/
structure CacheFile where
  isFile : Bool
  content : List Nat
  mtime : Nat
deriving DecidableEq

/-- The server's answer to the (conditional) GET: status code, body bytes,
and optional Last-Modified timestamp. -/
structure HttpResp where
  status : Nat
  body : List Nat
  lastModified : Option Nat
deriving DecidableEq

/-- Observable outcome of one `download_to_disk` call: the returned bytes (or
error), how many HTTP requests were sent, which If-Modified-Since timestamp
the request carried, the bytes written to the cache file (if any), and the
mtime set on it afterwards (if any). -/
structure FetchOutcome where
  result : Except String (List Nat)
  requests : Nat
  sentIfModifiedSince : Option Nat
  wrote : Option (List Nat)
  setMtime : Option Nat
deriving DecidableEq

/-- Embedding of `download_to_disk` (src/sync.rs): check the cached file's
metadata (a non-file cache path is an error before any request); send one GET
carrying If-Modified-Since derived from the cached mtime when the cache
exists; fail on a 4xx/5xx status; on 304 return the cached file's bytes with
no disk write; otherwise stream the body to disk, return it, and set the
file's mtime from Last-Modified when present.  The server's response is a
parameter (the network is external). -/
def download_to_disk (cached : Option CacheFile) (resp : HttpResp) :
    FetchOutcome :=
  match cached with
  | some cf =>
    if cf.isFile = false then
      { result := .error "exists but is not a file", requests := 0,
        sentIfModifiedSince := none, wrote := none, setMtime := none }
    else if 400 ≤ resp.status ∧ resp.status ≤ 599 then
      { result := .error "Request returned an error", requests := 1,
        sentIfModifiedSince := some cf.mtime, wrote := none, setMtime := none }
    else if resp.status = 304 then
      { result := .ok cf.content, requests := 1,
        sentIfModifiedSince := some cf.mtime, wrote := none, setMtime := none }
    else
      { result := .ok resp.body, requests := 1,
        sentIfModifiedSince := some cf.mtime, wrote := some resp.body,
        setMtime := resp.lastModified }
  | none =>
    if 400 ≤ resp.status ∧ resp.status ≤ 599 then
      { result := .error "Request returned an error", requests := 1,
        sentIfModifiedSince := none, wrote := none, setMtime := none }
    else if resp.status = 304 then
      { result := .error "failed to open for reading", requests := 1,
        sentIfModifiedSince := none, wrote := none, setMtime := none }
    else
      { result := .ok resp.body, requests := 1,
        sentIfModifiedSince := none, wrote := some resp.body,
        setMtime := resp.lastModified }

/-- C8: with a cached file of mtime T present, a 304 Not Modified answer to
the conditional GET (which carried If-Modified-Since T) makes the fetcher
return exactly the cached bytes, write nothing to disk, and send no request
beyond the single conditional GET. -/
theorem download_304_cached :
    ∀ (bytes : List Nat) (T : Nat) (resp : HttpResp), resp.status = 304 →
    download_to_disk (some ⟨true, bytes, T⟩) resp =
      { result := .ok bytes, requests := 1, sentIfModifiedSince := some T,
        wrote := none, setMtime := none } := by
  intro bytes T resp hst
  simp [download_to_disk, hst]

/-- Witness for C8 at a concrete cache and response. -/
theorem download_304_cached_witness :
    download_to_disk (some ⟨true, [10, 20, 30], 1700000000⟩)
      ⟨304, [], some 1700000000⟩ =
      { result := .ok [10, 20, 30], requests := 1,
        sentIfModifiedSince := some 1700000000, wrote := none,
        setMtime := none } :=
  download_304_cached [10, 20, 30] 1700000000 ⟨304, [], some 1700000000⟩ rfl

/-- The result-collection loop of `download_dbs` (src/sync.rs): the spawned
tasks' outcomes, in completion (join) order, are folded into one result; the
first failed source's error is propagated with the repo name wrapped, and a
success list is returned only when every source succeeded. -/
def collectDbs : List (String × Except String (List Nat)) →
    Except String (List (Repo × List Nat))
  | [] => .ok []
  | (repo, .error e) :: _ =>
    .error ("failed downloading repo " ++ repo ++ ": " ++ e)
  | (repo, .ok data) :: rest =>
    match collectDbs rest with
    | .ok dbs => .ok ((Repo.ofStr repo, data) :: dbs)
    | .error e => .error e

/-- C9 (amended): `download_dbs` spawns one task per source, but its
collection loop propagates the first failed source's error as the error of
the whole fetch phase: it returns a success value iff every source's fetch
succeeded, so the fetcher itself (not its caller) turns one source's failure
into a whole-phase failure. -/
theorem collectDbs_ok_iff :
    ∀ rs : List (String × Except String (List Nat)),
    exceptOk (collectDbs rs) = rs.all fun p => exceptOk p.2 := by
  intro rs
  induction rs with
  | nil => rfl
  | cons p rest ih =>
    obtain ⟨repo, res⟩ := p
    cases res with
    | error e => simp [collectDbs, exceptOk]
    | ok data =>
      rw [List.all_cons]
      cases hc : collectDbs rest with
      | ok dbs =>
        rw [hc] at ih
        have ih2 : (rest.all fun p => exceptOk p.2) = true := ih.symm
        rw [ih2]
        unfold collectDbs
        rw [hc]
        rfl
      | error e =>
        rw [hc] at ih
        have ih2 : (rest.all fun p => exceptOk p.2) = false := ih.symm
        rw [ih2]
        unfold collectDbs
        rw [hc]
        rfl

/-- Counterexample for C9 as stated: one failing source makes the fetch phase
itself return an error — per-source outcomes are not handed to the caller to
decide (the return type carries either all sources' bytes or one error). -/
theorem collectDbs_counterexample :
    collectDbs [("core", .ok [1]), ("extra", .error "connection refused")] =
      .error "failed downloading repo extra: connection refused" ∧
    collectDbs [("core", .ok [1]), ("extra", .error "connection refused")] ≠
      .ok [(Repo.Core, [1])] := by
  refine ⟨by decide, by decide⟩
